import Mathlib

/-!
# Verification of the `optimisation` repository's line search and least-squares wrapper

This file gives a shallow embedding, in exact real arithmetic, of the two
components of the repository:

* `goldensection` (notebook `boyd_ch9`), consisting of an exponential-doubling
  bracketing loop (64 iterations, `t = 1, 2, 4, ...`), a recursive
  golden-section narrowing routine `_gs` carried out on vectors with cached
  interior points and function values, and a final step-size recovery by
  component-wise division and averaging;
* the `least_squares` class (notebook `boyd_ch1`), which stores `A` and `b`
  unvalidated, coerces a query `x` to a column vector, validates its row count
  against `A`'s column count, and returns `‖A·x − b‖²`.

Points live in `Vec N := Fin N → ℝ`; `np.linalg.norm` is embedded as
`npNorm v = Real.sqrt (∑ i, v i ^ 2)` (the Euclidean norm), `np.average` as
sum divided by dimension.  The recursion of `_gs` is embedded with an explicit
fuel parameter (the Python recursion has no structural termination measure;
`none` stands for fuel exhaustion, which the real code escapes whenever the
precision is positive).  The nonlocal evaluation counter `nfev` is threaded
through the state explicitly.
-/

noncomputable section

namespace Optimisation

/-- `1/phi`, the reciprocal golden ratio: `iphi = (5**0.5 - 1)/2` from the source. -/
def iphi : ℝ := (Real.sqrt 5 - 1) / 2

/-- `1/phi^2`: `iphi2 = (3 - 5**0.5)/2` from the source. -/
def iphi2 : ℝ := (3 - Real.sqrt 5) / 2

/-- Points of `R^N`, as numpy arrays of shape `(N,)` (or column vectors). -/
abbrev Vec (N : ℕ) := Fin N → ℝ

/-- `np.linalg.norm v`: the Euclidean norm, square root of the sum of squares. -/
def npNorm {N : ℕ} (v : Vec N) : ℝ := Real.sqrt (∑ i, v i ^ 2)

/-- `np.average v`: the arithmetic mean of the components. -/
def npAverage {N : ℕ} (v : Vec N) : ℝ := (∑ i, v i) / N

/-- The point `x + s*dx` on the search ray through `x` with direction `dx`. -/
def rayPt {N : ℕ} (x dx : Vec N) (s : ℝ) : Vec N := x + s • dx

/-- The argument tuple of one invocation of the inner recursive routine
`_gs(x1, x4, h=None, x2=None, x3=None, fx2=None, fx3=None)`, together with the
current value of the nonlocal evaluation counter `nfev`. -/
structure GsState (N : ℕ) where
  x1 : Vec N
  x4 : Vec N
  h : Option (Vec N)
  x2 : Option (Vec N)
  x3 : Option (Vec N)
  fx2 : Option ℝ
  fx3 : Option ℝ
  nfev : ℕ

/-- `if h is None: h = x4 - x1` — the width vector used by the current call. -/
def gsResolveH {N : ℕ} (s : GsState N) : Vec N := s.h.getD (s.x4 - s.x1)

/-- One non-terminating step of `_gs`: fill in the defaulted interior points
`x2 = x1 + iphi2*h`, `x3 = x1 + iphi*h`, evaluate `_f` at whichever of them has
no cached value (incrementing `nfev` per evaluation), then recurse on
`(x1, x3)` with `h*iphi` reusing `x2, fx2` as the new `x3, fx3` when
`fx2 < fx3`, and on `(x2, x4)` with `h*iphi` reusing `x3, fx3` as the new
`x2, fx2` otherwise. -/
def gsStep {N : ℕ} (f : Vec N → ℝ) (s : GsState N) : GsState N :=
  let h := gsResolveH s
  let x2 := s.x2.getD (s.x1 + iphi2 • h)
  let x3 := s.x3.getD (s.x1 + iphi • h)
  let p2 : ℝ × ℕ := match s.fx2 with
    | some v => (v, s.nfev)
    | none => (f x2, s.nfev + 1)
  let p3 : ℝ × ℕ := match s.fx3 with
    | some v => (v, p2.2)
    | none => (f x3, p2.2 + 1)
  if p2.1 < p3.1 then
    ⟨s.x1, x3, some (iphi • h), none, some x2, none, some p2.1, p3.2⟩
  else
    ⟨x2, s.x4, some (iphi • h), some x3, none, some p3.1, none, p3.2⟩

/-- The recursive routine `_gs`, with explicit fuel.  A call first resolves
`h`, then returns the midpoint `(x1 + x4)/2` (with the current counter) as
soon as `np.linalg.norm(h) <= precision`, and otherwise performs one
`gsStep` and recurses.  `none` means the fuel ran out before termination. -/
def gsAux {N : ℕ} (f : Vec N → ℝ) (precision : ℝ) : ℕ → GsState N → Option (Vec N × ℕ)
  | 0, _ => none
  | fuel + 1, s =>
    if npNorm (gsResolveH s) ≤ precision then
      some ((2⁻¹ : ℝ) • (s.x1 + s.x4), s.nfev)
    else
      gsAux f precision fuel (gsStep f s)

/-- The bracketing loop: `t = 1`, then up to 64 times test
`_f(x + t*dx) > _f(x)` (two objective evaluations per iteration), breaking
with the current `t` on success and doubling `t` otherwise.  Returns the
successful `t` (or `none` after exhausting the budget) together with the
updated evaluation counter. -/
def bracketLoop {N : ℕ} (f : Vec N → ℝ) (x dx : Vec N) : ℕ → ℝ → ℕ → Option ℝ × ℕ
  | 0, _, c => (none, c)
  | fuel + 1, t, c =>
    if f (x + t • dx) > f x then (some t, c + 2)
    else bracketLoop f x dx fuel (2 * t) (c + 2)

/-- The dictionary returned by `goldensection`:
`{'x': xopt, 't': np.average((xopt - x)/dx), 'nfev': nfev}`. -/
structure LSResult (N : ℕ) where
  x : Vec N
  t : ℝ
  nfev : ℕ

/-- Outcome of a `goldensection` call: either the `RuntimeError` raised when
bracketing fails (no partial result is carried), or the returned dictionary. -/
inductive SearchResult (N : ℕ) where
  | bracketingFailed : SearchResult N
  | found : LSResult N → SearchResult N

/-- The initial argument tuple of the outer call `_gs(x1, x4)`: every optional
argument defaulted, counter as left by the bracketing phase. -/
def initGsState {N : ℕ} (x1 x4 : Vec N) (c : ℕ) : GsState N :=
  ⟨x1, x4, none, none, none, none, none, c⟩

/-- The golden-section phase and result assembly of `goldensection`, entered
with the bracket `[x, x + t*dx]` and the counter left by bracketing:
`xopt = _gs(x, x + t*dx)`, then the result dictionary with
`'t' = np.average((xopt - x) / dx)` (component-wise division). -/
def gsPhase {N : ℕ} (f : Vec N → ℝ) (x dx : Vec N) (precision : ℝ) (fuel : ℕ)
    (t : ℝ) (c : ℕ) : Option (SearchResult N) :=
  (gsAux f precision fuel (initGsState x (x + t • dx) c)).map
    (fun rc => .found ⟨rc.1, npAverage (fun i => (rc.1 i - x i) / dx i), rc.2⟩)

/-- `goldensection(func, x, dx, precision)`: bracket the minimum by
exponential doubling (64 iterations starting at `t = 1`), raising on
exhaustion, and otherwise run golden-section narrowing on `[x, x + t*dx]`
and assemble the result.  The outer `Option` is fuel exhaustion of the
embedded recursion only. -/
def goldensection {N : ℕ} (fuel : ℕ) (f : Vec N → ℝ) (x dx : Vec N)
    (precision : ℝ) : Option (SearchResult N) :=
  match bracketLoop f x dx 64 1 0 with
  | (none, _) => some .bracketingFailed
  | (some t, c) => gsPhase f x dx precision fuel t c

/-! ## Analysis predicates for the golden-section state -/

/-- Consistency of a `_gs` argument tuple: the carried `h` resolves to
`x4 - x1`, and any cached interior point sits at its golden position. -/
def GsInv {N : ℕ} (s : GsState N) : Prop :=
  gsResolveH s = s.x4 - s.x1 ∧
  (∀ v, s.x2 = some v → v = s.x1 + iphi2 • (s.x4 - s.x1)) ∧
  (∀ v, s.x3 = some v → v = s.x1 + iphi • (s.x4 - s.x1))

/-- Number of cached objective values carried by a `_gs` argument tuple. -/
def cachedFx {N : ℕ} (s : GsState N) : ℕ :=
  (cond s.fx2.isSome 1 0) + (cond s.fx3.isSome 1 0)

/-- Number of fresh objective evaluations one `gsStep` performs. -/
def stepCost {N : ℕ} (s : GsState N) : ℕ :=
  (cond s.fx2.isSome 0 1) + (cond s.fx3.isSome 0 1)

/-- Cached objective values really are the objective at some cached point. -/
def CacheOk {N : ℕ} (f : Vec N → ℝ) (s : GsState N) : Prop :=
  (∀ v, s.fx2 = some v → ∃ u, s.x2 = some u ∧ v = f u) ∧
  (∀ v, s.fx3 = some v → ∃ u, s.x3 = some u ∧ v = f u)

/-- Canonical form of a `_gs` state reached from the bracket `[x, x + T*dx]`:
the bracket is `[x + a*dx, x + (a+w)*dx]`, the width vector is `w • dx`, and
each cached interior point/value pair, if present, is the golden point of the
current bracket with its true objective value. -/
def GsCanon {N : ℕ} (f : Vec N → ℝ) (x dx : Vec N) (a w : ℝ) (s : GsState N) : Prop :=
  s.x1 = rayPt x dx a ∧
  s.x4 = rayPt x dx (a + w) ∧
  gsResolveH s = w • dx ∧
  ((s.x2 = none ∧ s.fx2 = none) ∨
    (s.x2 = some (rayPt x dx (a + iphi2 * w)) ∧
      s.fx2 = some (f (rayPt x dx (a + iphi2 * w))))) ∧
  ((s.x3 = none ∧ s.fx3 = none) ∨
    (s.x3 = some (rayPt x dx (a + iphi * w)) ∧
      s.fx3 = some (f (rayPt x dx (a + iphi * w)))))

/-- Every coordinate of a `_gs` state lies on the search ray. -/
def OnRay {N : ℕ} (x dx : Vec N) (s : GsState N) : Prop :=
  (∃ a, s.x1 = rayPt x dx a) ∧
  (∃ b, s.x4 = rayPt x dx b) ∧
  (∃ c : ℝ, gsResolveH s = c • dx) ∧
  (∀ v, s.x2 = some v → ∃ e, v = rayPt x dx e) ∧
  (∀ v, s.x3 = some v → ∃ e, v = rayPt x dx e)

/-! ## Least squares -/

/-- Shapes and diagnostics of the `ValueError` raised by
`least_squares.__call__`: `f"Shape mismatch, A: {A.shape}, x: {_x.shape}."`. -/
structure ShapeMismatch where
  Ashape : ℕ × ℕ
  xshape : ℕ × ℕ

/-- A query point as the caller may pass it: either a plain Python sequence of
numbers (`np.array(x).reshape(-1, 1)` is applied), or a numpy array of some
shape (`_x.reshape(-1, 1)` is applied unless it already is a 2-d column). -/
inductive NDInput where
  | seq : List ℝ → NDInput
  | arr : List ℕ → List ℝ → NDInput

/-- The data of the coerced column vector `_x`.  All three branches of the
source (`np.array(x).reshape(-1, 1)` for sequences, the identity for 2-d
columns, `_x.reshape(-1, 1)` otherwise) preserve the row-major data, so the
coerced `(len, 1)` column holds exactly the flattened data. -/
def NDInput.columnData : NDInput → List ℝ
  | .seq xs => xs
  | .arr _ data => data

/-- Entries of a list viewed as a column vector of height `n` (only used
under the row-count check `len = n`, where the default is never taken). -/
def listCol (l : List ℝ) (n : ℕ) : Vec n := fun j => l.getD j 0

/-- `A @ v` for an `m × n` matrix and a column vector `v`. -/
def mulVec {m n : ℕ} (A : Fin m → Fin n → ℝ) (v : Vec n) : Vec m :=
  fun i => ∑ j, A i j * v j

/-- The `least_squares` problem instance: `A` an `m × n` matrix and `b` a
column vector of height `p` (the constructor imposes no relation between `p`
and `m`). -/
structure least_squares (m n p : ℕ) where
  A : Fin m → Fin n → ℝ
  b : Vec p

/-- `least_squares.__init__`: stores `A` and `b` as given, with no validation;
it cannot fail. -/
def least_squares.init {m n p : ℕ} (A : Fin m → Fin n → ℝ) (b : Vec p) :
    least_squares m n p :=
  ⟨A, b⟩

/-- `least_squares.__call__(x)`: coerce `x` to a column vector `_x`; if its
row count differs from `A.shape[1]` raise `ValueError` carrying both shapes,
otherwise return `np.linalg.norm(A @ _x - b)**2`. -/
def least_squares.eval {m n : ℕ} (L : least_squares m n m) (x : NDInput) :
    Except ShapeMismatch ℝ :=
  if x.columnData.length = n then
    .ok (npNorm (fun i => mulVec L.A (listCol x.columnData n) i - L.b i) ^ 2)
  else
    .error ⟨(m, n), (x.columnData.length, 1)⟩

/-! ## Concrete instances used in witnesses and counterexamples -/

/-- Witness start point `0 ∈ R^1`. -/
def wx : Vec 1 := fun _ => 0

/-- Witness direction `1 ∈ R^1`. -/
def wdx : Vec 1 := fun _ => 1

/-- Witness objective `(v - 1/4)^2`, unimodal along the ray with minimizer `1/4`. -/
def wf : Vec 1 → ℝ := fun v => (v 0 - 4⁻¹) ^ 2

/-- The result of `goldensection 1 wf wx wdx 2`: bracketing succeeds at
`t = 1`, the initial bracket has norm `1 ≤ 2`, so the midpoint `1/2` is
returned after 2 evaluations, with recovered step `1/2`. -/
def wr : LSResult 1 := ⟨fun _ => 2⁻¹, 2⁻¹, 2⟩

/-- Counterexample start point `0 ∈ R^2`. -/
def cx : Vec 2 := fun _ => 0

/-- Counterexample direction `(1, 0)`: second component zero. -/
def cdx : Vec 2 := fun i => if i = 0 then 1 else 0

/-- Counterexample objective `(v 0 - 1/4)^2"` on `R^2`. -/
def cf : Vec 2 → ℝ := fun v => (v 0 - 4⁻¹) ^ 2

/-- The result of `goldensection 1 cf cx cdx 2`: point `(1/2, 0)`, but the
averaged step is `((1/2)/1 + 0/0)/2 = 1/4` because of the zero component. -/
def cr : LSResult 2 := ⟨fun i => if i = 0 then 2⁻¹ else 0, 4⁻¹, 2⟩

/-- A constant objective on `R^1`, for which bracketing always fails. -/
def zf : Vec 1 → ℝ := fun _ => 0

/-- Zero vector of `R^1` (start and direction of the failing bracket). -/
def zv : Vec 1 := fun _ => 0

/-- Concrete `_gs` argument tuple for the invariant witness: bracket `[0, 1]`
in `R^1`, nothing cached. -/
def gw : GsState 1 := ⟨(fun _ => 0), (fun _ => 1), none, none, none, none, none, 0⟩

/-- Constant objective used by the invariant witness. -/
def gwf : Vec 1 → ℝ := fun _ => 0

/-- Concrete `_gs` argument tuple with exactly one cached value, as produced
by a recursive call. -/
def hw5 : GsState 1 :=
  ⟨(fun _ => 0), (fun _ => 1), none, none, some (fun _ => 1), none, some 0, 0⟩

/-- A `1 × 2` least-squares instance for the shape-mismatch witness. -/
def L7 : least_squares 1 2 1 := ⟨fun _ _ => 0, fun _ => 0⟩

/-- A `1 × 1` least-squares instance (`A = [[2]]`, `b = [1]`) for the
evaluation witness. -/
def L8 : least_squares 1 1 1 := ⟨fun _ _ => 2, fun _ => 1⟩

/-! ## Golden-ratio arithmetic -/

theorem sqrt5_sq : Real.sqrt 5 ^ 2 = 5 := Real.sq_sqrt (by norm_num)

theorem sqrt5_gt_two : (2 : ℝ) < Real.sqrt 5 := by
  nlinarith [sqrt5_sq, Real.sqrt_nonneg 5]

theorem sqrt5_lt_three : Real.sqrt 5 < 3 := by
  nlinarith [sqrt5_sq, Real.sqrt_nonneg 5]

theorem iphi_pos : 0 < iphi := by
  unfold iphi; nlinarith [sqrt5_gt_two]

theorem iphi_lt_one : iphi < 1 := by
  unfold iphi; nlinarith [sqrt5_lt_three]

theorem iphi2_pos : 0 < iphi2 := by
  unfold iphi2; nlinarith [sqrt5_lt_three]

theorem iphi2_lt_iphi : iphi2 < iphi := by
  unfold iphi iphi2; nlinarith [sqrt5_gt_two]

theorem iphi_mul_iphi : iphi * iphi = iphi2 := by
  unfold iphi iphi2; linear_combination sqrt5_sq / 4

theorem iphi_add_iphi2 : iphi + iphi2 = 1 := by
  unfold iphi iphi2; ring

theorem iphi2_add_iphi2_mul_iphi : iphi2 + iphi2 * iphi = iphi := by
  unfold iphi iphi2; linear_combination (-4⁻¹ : ℝ) * sqrt5_sq

/-! ## Basic vector and norm lemmas -/

theorem rayPt_apply {N : ℕ} (x dx : Vec N) (s : ℝ) (i : Fin N) :
    rayPt x dx s i = x i + s * dx i := rfl

theorem rayPt_zero {N : ℕ} (x dx : Vec N) : rayPt x dx 0 = x := by
  funext i; simp [rayPt_apply]

theorem rayPt_add_smul_smul {N : ℕ} (x dx : Vec N) (a c w : ℝ) :
    rayPt x dx a + c • (w • dx) = rayPt x dx (a + c * w) := by
  funext i
  simp only [rayPt_apply, Pi.add_apply, Pi.smul_apply, smul_eq_mul]
  ring

theorem rayPt_sub {N : ℕ} (x dx : Vec N) (a b : ℝ) :
    rayPt x dx b - rayPt x dx a = (b - a) • dx := by
  funext i
  simp only [rayPt_apply, Pi.sub_apply, Pi.smul_apply, smul_eq_mul]
  ring

theorem rayPt_mid {N : ℕ} (x dx : Vec N) (a b : ℝ) :
    (2⁻¹ : ℝ) • (rayPt x dx a + rayPt x dx b) = rayPt x dx ((a + b) / 2) := by
  funext i
  simp only [rayPt_apply, Pi.add_apply, Pi.smul_apply, smul_eq_mul]
  ring

theorem npNorm_nonneg {N : ℕ} (v : Vec N) : 0 ≤ npNorm v := Real.sqrt_nonneg _

theorem npNorm_smul {N : ℕ} (c : ℝ) (v : Vec N) :
    npNorm (c • v) = |c| * npNorm v := by
  unfold npNorm
  have h : ∑ i, (c • v) i ^ 2 = c ^ 2 * ∑ i, v i ^ 2 := by
    rw [Finset.mul_sum]
    refine Finset.sum_congr rfl fun i _ => ?_
    simp only [Pi.smul_apply, smul_eq_mul]; ring
  rw [h, Real.sqrt_mul (sq_nonneg c), Real.sqrt_sq_eq_abs]

/-! ## Equation lemmas for the embedded routines -/

theorem gsAux_zero {N : ℕ} (f : Vec N → ℝ) (p : ℝ) (s : GsState N) :
    gsAux f p 0 s = none := rfl

theorem gsAux_succ {N : ℕ} (f : Vec N → ℝ) (p : ℝ) (fuel : ℕ) (s : GsState N) :
    gsAux f p (fuel + 1) s =
      if npNorm (gsResolveH s) ≤ p then
        some ((2⁻¹ : ℝ) • (s.x1 + s.x4), s.nfev)
      else gsAux f p fuel (gsStep f s) := rfl

theorem bracketLoop_zero {N : ℕ} (f : Vec N → ℝ) (x dx : Vec N) (t : ℝ) (c : ℕ) :
    bracketLoop f x dx 0 t c = (none, c) := rfl

theorem bracketLoop_succ {N : ℕ} (f : Vec N → ℝ) (x dx : Vec N) (fuel : ℕ)
    (t : ℝ) (c : ℕ) :
    bracketLoop f x dx (fuel + 1) t c =
      if f (x + t • dx) > f x then (some t, c + 2)
      else bracketLoop f x dx fuel (2 * t) (c + 2) := rfl

/-! ## Bracketing-loop lemmas -/

theorem bracketLoop_none_count {N : ℕ} (f : Vec N → ℝ) (x dx : Vec N) :
    ∀ fuel (t : ℝ) (c : ℕ), (bracketLoop f x dx fuel t c).1 = none →
      (bracketLoop f x dx fuel t c).2 = c + 2 * fuel := by
  intro fuel
  induction fuel with
  | zero => intro t c _; simp [bracketLoop_zero]
  | succ fuel ih =>
    intro t c hnone
    rw [bracketLoop_succ] at hnone ⊢
    by_cases hb : f (x + t • dx) > f x
    · rw [if_pos hb] at hnone; simp at hnone
    · rw [if_neg hb] at hnone ⊢
      rw [ih (2 * t) (c + 2) hnone]; ring

theorem bracketLoop_all_fail {N : ℕ} (f : Vec N → ℝ) (x dx : Vec N) :
    ∀ fuel (j : ℕ) (c : ℕ),
      (∀ k, k < fuel → ¬ f (x + ((2 : ℝ) ^ (j + k)) • dx) > f x) →
      bracketLoop f x dx fuel ((2 : ℝ) ^ j) c = (none, c + 2 * fuel) := by
  intro fuel
  induction fuel with
  | zero => intro j c _; simp [bracketLoop_zero]
  | succ fuel ih =>
    intro j c hall
    rw [bracketLoop_succ, if_neg (by simpa using hall 0 (Nat.succ_pos _))]
    have h2 : 2 * (2 : ℝ) ^ j = (2 : ℝ) ^ (j + 1) := by rw [pow_succ]; ring
    rw [h2, ih (j + 1) (c + 2) (fun k hk => by
      have := hall (k + 1) (by omega)
      simpa [Nat.add_assoc, Nat.add_comm 1 k] using this)]
    simp only [Prod.mk.injEq]
    refine ⟨by simp, by omega⟩

theorem bracketLoop_find {N : ℕ} (f : Vec N → ℝ) (x dx : Vec N) :
    ∀ fuel (i j : ℕ) (c : ℕ), i < fuel →
      f (x + ((2 : ℝ) ^ (j + i)) • dx) > f x →
      (∀ l, l < i → ¬ f (x + ((2 : ℝ) ^ (j + l)) • dx) > f x) →
      bracketLoop f x dx fuel ((2 : ℝ) ^ j) c =
        (some ((2 : ℝ) ^ (j + i)), c + 2 * (i + 1)) := by
  intro fuel
  induction fuel with
  | zero => intro i j c hi; omega
  | succ fuel ih =>
    intro i j c hi hk hmin
    rw [bracketLoop_succ]
    match i with
    | 0 =>
      rw [if_pos (by simpa using hk)]
      simp
    | i' + 1 =>
      rw [if_neg (by simpa using hmin 0 (Nat.succ_pos _))]
      have h2 : 2 * (2 : ℝ) ^ j = (2 : ℝ) ^ (j + 1) := by rw [pow_succ]; ring
      rw [h2, ih i' (j + 1) (c + 2) (by omega)
        (by  rw [show j + 1 + i' = j + (i' + 1) by omega]; exact hk)
        (fun l hl => by
          have := hmin (l + 1) (by omega)
          simpa [show j + (l + 1) = j + 1 + l by omega] using this)]
      simp only [Prod.mk.injEq, Option.some.injEq]
      exact ⟨by rw [show j + 1 + i' = j + (i' + 1) by omega], by omega⟩

theorem bracketLoop_some {N : ℕ} (f : Vec N → ℝ) (x dx : Vec N) :
    ∀ fuel (t : ℝ) (c : ℕ) (res : ℝ) (c' : ℕ),
      bracketLoop f x dx fuel t c = (some res, c') →
      ∃ i, i < fuel ∧ res = (2 : ℝ) ^ i * t ∧ c' = c + 2 * (i + 1) ∧
        f (x + res • dx) > f x ∧
        (∀ l, l < i → ¬ f (x + ((2 : ℝ) ^ l * t) • dx) > f x) := by
  intro fuel
  induction fuel with
  | zero => intro t c res c' h; rw [bracketLoop_zero] at h; simp at h
  | succ fuel ih =>
    intro t c res c' h
    rw [bracketLoop_succ] at h
    by_cases hb : f (x + t • dx) > f x
    · rw [if_pos hb] at h
      rw [Prod.mk.injEq, Option.some.injEq] at h
      obtain ⟨h1, h2⟩ := h
      refine ⟨0, Nat.succ_pos _, by rw [← h1]; ring, by omega,
        by rw [← h1]; exact hb, fun l hl => by omega⟩
    · rw [if_neg hb] at h
      obtain ⟨i, hifuel, hres, hc, hsucc, hmin⟩ := ih (2 * t) (c + 2) res c' h
      refine ⟨i + 1, by omega, ?_, by omega, hsucc, ?_⟩
      · rw [hres, pow_succ]; ring
      · intro l hl
        match l with
        | 0 => simpa using hb
        | l' + 1 =>
          have := hmin l' (by omega)
          rw [pow_succ] at *
          simpa [show (2:ℝ) ^ l' * 2 * t = 2 ^ l' * (2 * t) by ring] using this

/-! ## One-step lemmas for the golden-section recursion -/

theorem gsStep_nfev {N : ℕ} (f : Vec N → ℝ) (s : GsState N) :
    (gsStep f s).nfev = s.nfev + stepCost s := by
  obtain ⟨x1, x4, h, x2, x3, fx2, fx3, c⟩ := s
  cases fx2 <;> cases fx3 <;>
    · simp only [gsStep, stepCost]
      split <;> simp

theorem gsStep_cachedFx {N : ℕ} (f : Vec N → ℝ) (s : GsState N) :
    cachedFx (gsStep f s) = 1 := by
  obtain ⟨x1, x4, h, x2, x3, fx2, fx3, c⟩ := s
  cases fx2 <;> cases fx3 <;>
    · simp only [gsStep]
      split <;> simp [cachedFx]

theorem gsStep_shift {N : ℕ} (f : Vec N → ℝ) (s : GsState N) (c : ℕ) :
    gsStep f { s with nfev := c } = { gsStep f s with nfev := c + stepCost s } := by
  obtain ⟨x1, x4, h, x2, x3, fx2, fx3, c0⟩ := s
  cases fx2 <;> cases fx3 <;>
    · simp only [gsStep, stepCost, gsResolveH]
      split <;> simp

theorem gsStep_cacheOk {N : ℕ} (f : Vec N → ℝ) (s : GsState N)
    (hok : CacheOk f s) : CacheOk f (gsStep f s) := by
  obtain ⟨x1, x4, h, x2, x3, fx2, fx3, c⟩ := s
  obtain ⟨hok2, hok3⟩ := hok
  cases fx2 with
  | none =>
    cases fx3 with
    | none =>
      simp only [gsStep]
      split
      · refine ⟨fun v hv => ?_, fun v hv => ?_⟩
        · simp at hv
        · simp only [Option.some.injEq] at hv
          exact ⟨_, rfl, hv.symm⟩
      · refine ⟨fun v hv => ?_, fun v hv => ?_⟩
        · simp only [Option.some.injEq] at hv
          exact ⟨_, rfl, hv.symm⟩
        · simp at hv
    | some v3 =>
      obtain ⟨u3, hu3, hv3⟩ := hok3 v3 rfl
      replace hu3 : x3 = some u3 := hu3
      simp only [gsStep]
      split
      · refine ⟨fun v hv => ?_, fun v hv => ?_⟩
        · simp at hv
        · simp only [Option.some.injEq] at hv
          exact ⟨_, rfl, hv.symm⟩
      · refine ⟨fun v hv => ?_, fun v hv => ?_⟩
        · simp only [Option.some.injEq] at hv
          subst hv
          refine ⟨_, rfl, ?_⟩
          rw [hu3]
          simpa using hv3
        · simp at hv
  | some v2 =>
    obtain ⟨u2, hu2, hv2⟩ := hok2 v2 rfl
    replace hu2 : x2 = some u2 := hu2
    cases fx3 with
    | none =>
      simp only [gsStep]
      split
      · refine ⟨fun v hv => ?_, fun v hv => ?_⟩
        · simp at hv
        · simp only [Option.some.injEq] at hv
          subst hv
          refine ⟨_, rfl, ?_⟩
          rw [hu2]
          simpa using hv2
      · refine ⟨fun v hv => ?_, fun v hv => ?_⟩
        · simp only [Option.some.injEq] at hv
          exact ⟨_, rfl, hv.symm⟩
        · simp at hv
    | some v3 =>
      obtain ⟨u3, hu3, hv3⟩ := hok3 v3 rfl
      replace hu3 : x3 = some u3 := hu3
      simp only [gsStep]
      split
      · refine ⟨fun v hv => ?_, fun v hv => ?_⟩
        · simp at hv
        · simp only [Option.some.injEq] at hv
          subst hv
          refine ⟨_, rfl, ?_⟩
          rw [hu2]
          simpa using hv2
      · refine ⟨fun v hv => ?_, fun v hv => ?_⟩
        · simp only [Option.some.injEq] at hv
          subst hv
          refine ⟨_, rfl, ?_⟩
          rw [hu3]
          simpa using hv3
        · simp at hv

theorem gsStep_eq {N : ℕ} (f : Vec N → ℝ) (s : GsState N)
    (x2v x3v : Vec N) (fx2v fx3v : ℝ)
    (h2 : s.x2.getD (s.x1 + iphi2 • gsResolveH s) = x2v)
    (h3 : s.x3.getD (s.x1 + iphi • gsResolveH s) = x3v)
    (hf2 : s.fx2.getD (f x2v) = fx2v)
    (hf3 : s.fx3.getD (f x3v) = fx3v) :
    gsStep f s =
      if fx2v < fx3v then
        ⟨s.x1, x3v, some (iphi • gsResolveH s), none, some x2v, none, some fx2v,
          s.nfev + stepCost s⟩
      else
        ⟨x2v, s.x4, some (iphi • gsResolveH s), some x3v, none, some fx3v, none,
          s.nfev + stepCost s⟩ := by
  obtain ⟨x1, x4, h, x2, x3, fx2, fx3, c⟩ := s
  cases fx2 <;> cases fx3 <;>
    · dsimp only [gsStep, stepCost] at *
      simp only [Option.getD_some, Option.getD_none, Option.isSome_some,
        Option.isSome_none, cond_true, cond_false, Nat.add_zero, Nat.zero_add]
        at hf2 hf3 ⊢
      rw [h2, h3, hf2, hf3]

theorem gsStep_canon {N : ℕ} (f : Vec N → ℝ) (x dx : Vec N) (a w : ℝ)
    (s : GsState N) (hc : GsCanon f x dx a w s) :
    (f (rayPt x dx (a + iphi2 * w)) < f (rayPt x dx (a + iphi * w)) →
      GsCanon f x dx a (iphi * w) (gsStep f s)) ∧
    (¬ f (rayPt x dx (a + iphi2 * w)) < f (rayPt x dx (a + iphi * w)) →
      GsCanon f x dx (a + iphi2 * w) (iphi * w) (gsStep f s)) := by
  obtain ⟨hx1, hx4, hh, hc2, hc3⟩ := hc
  have h2 : s.x2.getD (s.x1 + iphi2 • gsResolveH s) = rayPt x dx (a + iphi2 * w) := by
    rcases hc2 with ⟨h2n, _⟩ | ⟨h2s, _⟩
    · rw [h2n, Option.getD_none, hx1, hh, rayPt_add_smul_smul]
    · rw [h2s, Option.getD_some]
  have h3 : s.x3.getD (s.x1 + iphi • gsResolveH s) = rayPt x dx (a + iphi * w) := by
    rcases hc3 with ⟨h3n, _⟩ | ⟨h3s, _⟩
    · rw [h3n, Option.getD_none, hx1, hh, rayPt_add_smul_smul]
    · rw [h3s, Option.getD_some]
  have hf2 : s.fx2.getD (f (rayPt x dx (a + iphi2 * w)))
      = f (rayPt x dx (a + iphi2 * w)) := by
    rcases hc2 with ⟨_, h2fn⟩ | ⟨_, h2fs⟩
    · rw [h2fn, Option.getD_none]
    · rw [h2fs, Option.getD_some]
  have hf3 : s.fx3.getD (f (rayPt x dx (a + iphi * w)))
      = f (rayPt x dx (a + iphi * w)) := by
    rcases hc3 with ⟨_, h3fn⟩ | ⟨_, h3fs⟩
    · rw [h3fn, Option.getD_none]
    · rw [h3fs, Option.getD_some]
  have hstep := gsStep_eq f s _ _ _ _ h2 h3 hf2 hf3
  have hH : iphi • gsResolveH s = (iphi * w) • dx := by rw [hh, smul_smul]
  have hsc : a + iphi * (iphi * w) = a + iphi2 * w := by
    rw [← mul_assoc, iphi_mul_iphi]
  have hsum : a + iphi2 * w + iphi * w = a + w := by
    linear_combination w * iphi_add_iphi2
  have hmix : a + iphi2 * w + iphi2 * (iphi * w) = a + iphi * w := by
    linear_combination w * iphi2_add_iphi2_mul_iphi
  constructor
  · intro hlt
    rw [hstep, if_pos hlt]
    refine ⟨hx1, rfl, ?_, Or.inl ⟨rfl, rfl⟩, Or.inr ⟨?_, ?_⟩⟩
    · simp only [gsResolveH, Option.getD_some]
      exact hH
    · rw [hsc]
    · rw [hsc]
  · intro hge
    rw [hstep, if_neg hge]
    refine ⟨rfl, ?_, ?_, Or.inr ⟨?_, ?_⟩, Or.inl ⟨rfl, rfl⟩⟩
    · rw [hsum]
      exact hx4
    · simp only [gsResolveH, Option.getD_some]
      exact hH
    · rw [hmix]
    · rw [hmix]

/-- Main run lemma for the narrowing phase: from a canonical state whose
parameter bracket `[a, a+w]` contains the ray minimizer `tm` of a function
strictly decreasing before `tm` and strictly increasing after it, a
terminating `gsAux` run ends in a bracket still containing `tm`, of norm at
most `precision`, and returns its midpoint. -/
theorem gsAux_canon_run {N : ℕ} (f : Vec N → ℝ) (x dx : Vec N) (p tm : ℝ)
    (hanti : StrictAntiOn (fun t => f (rayPt x dx t)) (Set.Icc 0 tm))
    (hmono : StrictMonoOn (fun t => f (rayPt x dx t)) (Set.Ici tm)) :
    ∀ fuel (s : GsState N) (a w : ℝ), GsCanon f x dx a w s → 0 ≤ a → 0 < w →
      tm ∈ Set.Icc a (a + w) →
      ∀ r c', gsAux f p fuel s = some (r, c') →
      ∃ a' w', 0 < w' ∧ tm ∈ Set.Icc a' (a' + w') ∧ npNorm (w' • dx) ≤ p ∧
        r = rayPt x dx (a' + w' / 2) := by
  intro fuel
  induction fuel with
  | zero =>
    intro s a w _ _ _ _ r c' hres
    rw [gsAux_zero] at hres
    exact absurd hres (by simp)
  | succ fuel ih =>
    intro s a w hc ha hw htm r c' hres
    obtain ⟨htm1, htm2⟩ := htm
    rw [gsAux_succ] at hres
    by_cases hnorm : npNorm (gsResolveH s) ≤ p
    · rw [if_pos hnorm] at hres
      simp only [Option.some.injEq, Prod.mk.injEq] at hres
      obtain ⟨hr, _⟩ := hres
      refine ⟨a, w, hw, ⟨htm1, htm2⟩, ?_, ?_⟩
      · rwa [hc.2.2.1] at hnorm
      · have hmid : (a + (a + w)) / 2 = a + w / 2 := by ring
        rw [← hr, hc.1, hc.2.1, rayPt_mid, hmid]
    · rw [if_neg hnorm] at hres
      have hstep := gsStep_canon f x dx a w s hc
      have hww : 0 < iphi * w := mul_pos iphi_pos hw
      have hc2a : a < a + iphi2 * w := by nlinarith [iphi2_pos]
      have hc2c3 : a + iphi2 * w < a + iphi * w := by nlinarith [iphi2_lt_iphi]
      have hc3w : a + iphi * w < a + w := by nlinarith [iphi_lt_one]
      by_cases hbr : f (rayPt x dx (a + iphi2 * w)) < f (rayPt x dx (a + iphi * w))
      · have hcan' := hstep.1 hbr
        have htm' : tm ∈ Set.Icc a (a + iphi * w) := by
          refine ⟨htm1, ?_⟩
          by_contra hcon
          push_neg at hcon
          have hm2 : a + iphi2 * w ∈ Set.Icc 0 tm :=
            ⟨by linarith, by linarith⟩
          have hm3 : a + iphi * w ∈ Set.Icc 0 tm :=
            ⟨by linarith, le_of_lt hcon⟩
          have hlt : f (rayPt x dx (a + iphi * w)) < f (rayPt x dx (a + iphi2 * w)) :=
            hanti hm2 hm3 hc2c3
          linarith
        exact ih (gsStep f s) a (iphi * w) hcan' ha hww htm' r c' hres
      · have hcan' := hstep.2 hbr
        have htm' : tm ∈ Set.Icc (a + iphi2 * w) (a + iphi2 * w + iphi * w) := by
          constructor
          · by_contra hcon
            push_neg at hcon
            have hm2 : a + iphi2 * w ∈ Set.Ici tm := le_of_lt hcon
            have hm3 : a + iphi * w ∈ Set.Ici tm :=
              le_of_lt (lt_trans hcon hc2c3)
            have hlt : f (rayPt x dx (a + iphi2 * w)) < f (rayPt x dx (a + iphi * w)) :=
              hmono hm2 hm3 hc2c3
            exact hbr hlt
          · have heq : a + iphi2 * w + iphi * w = a + w := by
              linear_combination w * iphi_add_iphi2
            rw [heq]
            exact htm2
        have ha' : 0 ≤ a + iphi2 * w := le_trans ha (le_of_lt hc2a)
        exact ih (gsStep f s) (a + iphi2 * w) (iphi * w) hcan' ha' hww htm' r c' hres

theorem gsStep_onRay {N : ℕ} (f : Vec N → ℝ) (x dx : Vec N) (s : GsState N)
    (hs : OnRay x dx s) : OnRay x dx (gsStep f s) := by
  obtain ⟨⟨a1, ha1⟩, ⟨b4, hb4⟩, ⟨ch, hch⟩, h2r, h3r⟩ := hs
  have hx2v : ∃ e, s.x2.getD (s.x1 + iphi2 • gsResolveH s) = rayPt x dx e := by
    cases h2 : s.x2 with
    | none =>
      refine ⟨a1 + iphi2 * ch, ?_⟩
      rw [Option.getD_none, ha1, hch, rayPt_add_smul_smul]
    | some v =>
      obtain ⟨e, he⟩ := h2r v h2
      exact ⟨e, by rw [Option.getD_some, he]⟩
  have hx3v : ∃ e, s.x3.getD (s.x1 + iphi • gsResolveH s) = rayPt x dx e := by
    cases h3 : s.x3 with
    | none =>
      refine ⟨a1 + iphi * ch, ?_⟩
      rw [Option.getD_none, ha1, hch, rayPt_add_smul_smul]
    | some v =>
      obtain ⟨e, he⟩ := h3r v h3
      exact ⟨e, by rw [Option.getD_some, he]⟩
  obtain ⟨e2, he2⟩ := hx2v
  obtain ⟨e3, he3⟩ := hx3v
  have hstep := gsStep_eq f s _ _ (s.fx2.getD (f (s.x2.getD (s.x1 + iphi2 • gsResolveH s))))
    (s.fx3.getD (f (s.x3.getD (s.x1 + iphi • gsResolveH s)))) rfl rfl rfl rfl
  have hH : iphi • gsResolveH s = (iphi * ch) • dx := by rw [hch, smul_smul]
  rw [hstep]
  split
  · exact ⟨⟨a1, ha1⟩, ⟨e3, he3⟩,
      ⟨iphi * ch, by simp only [gsResolveH, Option.getD_some]; exact hH⟩,
      fun v hv => by simp at hv,
      fun v hv => by
        simp only [Option.some.injEq] at hv
        exact ⟨e2, by rw [← hv, he2]⟩⟩
  · exact ⟨⟨e2, he2⟩, ⟨b4, hb4⟩,
      ⟨iphi * ch, by simp only [gsResolveH, Option.getD_some]; exact hH⟩,
      fun v hv => by
        simp only [Option.some.injEq] at hv
        exact ⟨e3, by rw [← hv, he3]⟩,
      fun v hv => by simp at hv⟩

theorem gsAux_ray {N : ℕ} (f : Vec N → ℝ) (p : ℝ) (x dx : Vec N) :
    ∀ fuel (s : GsState N), OnRay x dx s → ∀ r c',
      gsAux f p fuel s = some (r, c') → ∃ e, r = rayPt x dx e := by
  intro fuel
  induction fuel with
  | zero =>
    intro s _ r c' hres
    rw [gsAux_zero] at hres
    exact absurd hres (by simp)
  | succ fuel ih =>
    intro s hs r c' hres
    rw [gsAux_succ] at hres
    by_cases hnorm : npNorm (gsResolveH s) ≤ p
    · rw [if_pos hnorm] at hres
      simp only [Option.some.injEq, Prod.mk.injEq] at hres
      obtain ⟨hr, _⟩ := hres
      obtain ⟨⟨a1, ha1⟩, ⟨b4, hb4⟩, _, _, _⟩ := hs
      exact ⟨(a1 + b4) / 2, by rw [← hr, ha1, hb4, rayPt_mid]⟩
    · rw [if_neg hnorm] at hres
      exact ih (gsStep f s) (gsStep_onRay f x dx s hs) r c' hres

theorem gsResolveH_update {N : ℕ} (s : GsState N) (c : ℕ) :
    gsResolveH { s with nfev := c } = gsResolveH s := rfl

theorem gsAux_shift {N : ℕ} (f : Vec N → ℝ) (p : ℝ) :
    ∀ fuel (s : GsState N) (c : ℕ),
      gsAux f p fuel { s with nfev := c } =
        (gsAux f p fuel { s with nfev := 0 }).map (fun rc => (rc.1, rc.2 + c)) := by
  intro fuel
  induction fuel with
  | zero => intro s c; simp [gsAux_zero]
  | succ fuel ih =>
    intro s c
    rw [gsAux_succ, gsAux_succ]
    simp only [gsResolveH_update]
    by_cases hn : npNorm (gsResolveH s) ≤ p
    · rw [if_pos hn, if_pos hn]
      simp
    · rw [if_neg hn, if_neg hn, gsStep_shift f s c, gsStep_shift f s 0,
        ih (gsStep f s) (c + stepCost s), ih (gsStep f s) (0 + stepCost s)]
      cases gsAux f p fuel { gsStep f s with nfev := 0 } with
      | none => simp
      | some rc => simp; omega

theorem gsAux_mono {N : ℕ} (f : Vec N → ℝ) (p : ℝ) (fuel : ℕ) (s : GsState N)
    (r : Vec N) (c' : ℕ) (h : gsAux f p fuel s = some (r, c')) : s.nfev ≤ c' := by
  have hs := gsAux_shift f p fuel s s.nfev
  have he : { s with nfev := s.nfev } = s := rfl
  rw [he] at hs
  rw [hs] at h
  cases hgs : gsAux f p fuel { s with nfev := 0 } with
  | none => rw [hgs] at h; simp at h
  | some rc =>
    rw [hgs] at h
    simp only [Option.map, Option.some.injEq, Prod.mk.injEq] at h
    omega

theorem gsResolveH_mk_some {N : ℕ} (x1 x4 h : Vec N) (x2 x3 : Option (Vec N))
    (fx2 fx3 : Option ℝ) (n : ℕ) :
    gsResolveH (⟨x1, x4, some h, x2, x3, fx2, fx3, n⟩ : GsState N) = h := rfl

theorem bracketLoop_none_iff {N : ℕ} (f : Vec N → ℝ) (x dx : Vec N) :
    ∀ fuel (j : ℕ) (c : ℕ),
      (bracketLoop f x dx fuel ((2 : ℝ) ^ j) c).1 = none ↔
        ∀ k, k < fuel → ¬ f (x + ((2 : ℝ) ^ (j + k)) • dx) > f x := by
  intro fuel
  induction fuel with
  | zero => intro j c; simp [bracketLoop_zero]
  | succ fuel ih =>
    intro j c
    rw [bracketLoop_succ]
    by_cases hb : f (x + ((2 : ℝ) ^ j) • dx) > f x
    · rw [if_pos hb]
      constructor
      · intro hfalse; exact absurd hfalse (by simp)
      · intro hall; exact absurd hb (by simpa using hall 0 (Nat.succ_pos _))
    · rw [if_neg hb]
      have h2 : 2 * (2 : ℝ) ^ j = (2 : ℝ) ^ (j + 1) := by rw [pow_succ]; ring
      rw [h2, ih (j + 1) (c + 2)]
      constructor
      · intro hall k hk
        match k with
        | 0 => simpa using hb
        | k' + 1 =>
          have := hall k' (by omega)
          simpa [show j + (k' + 1) = j + 1 + k' by omega] using this
      · intro hall k hk
        have := hall (k + 1) (by omega)
        simpa [show j + 1 + k = j + (k + 1) by omega] using this

theorem goldensection_of_bracket {N : ℕ} (fuel : ℕ) (f : Vec N → ℝ)
    (x dx : Vec N) (p t : ℝ) (c : ℕ)
    (hbl : bracketLoop f x dx 64 1 0 = (some t, c)) :
    goldensection fuel f x dx p = gsPhase f x dx p fuel t c := by
  unfold goldensection
  rw [hbl]

theorem goldensection_of_bracket_fail {N : ℕ} (fuel : ℕ) (f : Vec N → ℝ)
    (x dx : Vec N) (p : ℝ) (c : ℕ)
    (hbl : bracketLoop f x dx 64 1 0 = (none, c)) :
    goldensection fuel f x dx p = some SearchResult.bracketingFailed := by
  unfold goldensection
  rw [hbl]

/-! ## Claim theorems -/

/-- C3: at every recursive invocation of `_gs` the carried width `h` equals
`x4 - x1` (this consistency is preserved by every step, starting from the
initial call where `h` defaults to `x4 - x1`), and each non-terminating step
multiplies the bracket width by exactly `iphi = (sqrt 5 - 1)/2`: the new
bracket is `[x1, x3]` or `[x2, x4]`, and in both cases the new width vector
and the new `x4 - x1` equal `iphi` times the old ones. -/
theorem gs_step_width_shrink {N : ℕ} (f : Vec N → ℝ) (s : GsState N)
    (hs : GsInv s) :
    GsInv (gsStep f s) ∧
    gsResolveH (gsStep f s) = iphi • gsResolveH s ∧
    (gsStep f s).x4 - (gsStep f s).x1 = iphi • (s.x4 - s.x1) ∧
    (((gsStep f s).x1 = s.x1 ∧
        (gsStep f s).x4 = s.x3.getD (s.x1 + iphi • gsResolveH s)) ∨
      ((gsStep f s).x1 = s.x2.getD (s.x1 + iphi2 • gsResolveH s) ∧
        (gsStep f s).x4 = s.x4)) := by
  obtain ⟨hh, h2i, h3i⟩ := hs
  have hx2v : s.x2.getD (s.x1 + iphi2 • gsResolveH s)
      = s.x1 + iphi2 • (s.x4 - s.x1) := by
    cases h2 : s.x2 with
    | none => rw [Option.getD_none, hh]
    | some v => rw [Option.getD_some]; exact h2i v h2
  have hx3v : s.x3.getD (s.x1 + iphi • gsResolveH s)
      = s.x1 + iphi • (s.x4 - s.x1) := by
    cases h3 : s.x3 with
    | none => rw [Option.getD_none, hh]
    | some v => rw [Option.getD_some]; exact h3i v h3
  have hstep := gsStep_eq f s _ _ _ _ rfl rfl rfl rfl
  have hid1 : (s.x1 + iphi • (s.x4 - s.x1)) - s.x1 = iphi • (s.x4 - s.x1) :=
    add_sub_cancel_left _ _
  have hid2 : s.x4 - (s.x1 + iphi2 • (s.x4 - s.x1)) = iphi • (s.x4 - s.x1) := by
    funext i
    simp only [Pi.sub_apply, Pi.add_apply, Pi.smul_apply, smul_eq_mul]
    linear_combination (-(s.x4 i - s.x1 i)) * iphi_add_iphi2
  have hid3 : s.x1 + iphi2 • (s.x4 - s.x1) + iphi2 • (iphi • (s.x4 - s.x1))
      = s.x1 + iphi • (s.x4 - s.x1) := by
    funext i
    simp only [Pi.add_apply, Pi.sub_apply, Pi.smul_apply, smul_eq_mul]
    linear_combination (s.x4 i - s.x1 i) * iphi2_add_iphi2_mul_iphi
  have hid4 : s.x1 + iphi • (iphi • (s.x4 - s.x1))
      = s.x1 + iphi2 • (s.x4 - s.x1) := by
    rw [smul_smul, iphi_mul_iphi]
  rw [hstep]
  split
  · refine ⟨⟨?_, ?_, ?_⟩, ?_, ?_, Or.inl ⟨rfl, rfl⟩⟩
    · rw [gsResolveH_mk_some, hx3v, hh, hid1]
    · intro v hv; simp at hv
    · intro v hv
      simp only [Option.some.injEq] at hv
      subst hv
      rw [hx2v, hx3v, hid1, hid4]
    · rw [gsResolveH_mk_some]
    · rw [hx3v, hid1]
  · refine ⟨⟨?_, ?_, ?_⟩, ?_, ?_, Or.inr ⟨rfl, rfl⟩⟩
    · rw [gsResolveH_mk_some, hx2v, hh, hid2]
    · intro v hv
      simp only [Option.some.injEq] at hv
      subst hv
      rw [hx3v, hx2v, hid2, hid3]
    · intro v hv; simp at hv
    · rw [gsResolveH_mk_some]
    · rw [hx2v, hid2]

/-- C5: every recursive step of `_gs` leaves exactly one cached objective
value for the next invocation, a step entered with exactly one cached value
performs exactly one fresh objective evaluation (the counter grows by one,
never two), and the carried values always remain true objective values of
carried points. -/
theorem gs_step_single_eval {N : ℕ} (f : Vec N → ℝ) (s : GsState N) :
    cachedFx (gsStep f s) = 1 ∧
    (cachedFx s = 1 → (gsStep f s).nfev = s.nfev + 1) ∧
    (CacheOk f s → CacheOk f (gsStep f s)) := by
  refine ⟨gsStep_cachedFx f s, ?_, gsStep_cacheOk f s⟩
  intro h1
  rw [gsStep_nfev]
  unfold cachedFx at h1
  unfold stepCost
  cases h2 : s.fx2.isSome <;> cases h3 : s.fx3.isSome <;>
    simp only [h2, h3, cond_true, cond_false] at h1 ⊢ <;> omega

/-- C10: the `least_squares` constructor performs no validation: for every
matrix `A` and every vector `b`, of any row counts `m` and `p` (matching or
not), construction succeeds and stores `A` and `b` exactly as given. -/
theorem least_squares_init_stores {m n p : ℕ} (A : Fin m → Fin n → ℝ)
    (b : Vec p) :
    (least_squares.init A b).A = A ∧ (least_squares.init A b).b = b :=
  ⟨rfl, rfl⟩

/-- C7: `least_squares.__call__` raises the shape-mismatch error exactly when
the coerced column vector's row count differs from `A`'s column count `n`; in
that case no value is returned, and the error carries `A`'s shape `(m, n)`
and the coerced query's shape `(len, 1)`. -/
theorem eval_shape_mismatch_iff {m n : ℕ} (L : least_squares m n m)
    (x : NDInput) :
    ((∃ e, L.eval x = .error e) ↔ x.columnData.length ≠ n) ∧
    (∀ e, L.eval x = .error e →
      e.Ashape = (m, n) ∧ e.xshape = (x.columnData.length, 1)) := by
  by_cases h : x.columnData.length = n
  · unfold least_squares.eval
    rw [if_pos h]
    refine ⟨⟨?_, ?_⟩, ?_⟩
    · rintro ⟨e, he⟩
      exact absurd he (by simp)
    · intro hne
      exact absurd h hne
    · intro e he
      exact absurd he (by simp)
  · unfold least_squares.eval
    rw [if_neg h]
    refine ⟨⟨fun _ => h, fun _ => ⟨_, rfl⟩⟩, ?_⟩
    intro e he
    simp only [Except.error.injEq] at he
    rw [← he]
    exact ⟨rfl, rfl⟩

/-- C8: for an accepted query (value count equal to `A`'s column count),
`least_squares.__call__` returns the squared Euclidean norm of the residual
`A·x − b` (the sum of its squared entries), and a flat sequence and an array
of any shape holding the same values evaluate identically.  The embedding is
pure: `A`, `b` and `x` are untouched. -/
theorem eval_residual_sq_norm {m n : ℕ} (L : least_squares m n m)
    (xs : List ℝ) (h : xs.length = n) :
    L.eval (.seq xs) = .ok (∑ i, (mulVec L.A (listCol xs n) i - L.b i) ^ 2) ∧
    (∀ shape, L.eval (.arr shape xs) = L.eval (.seq xs)) := by
  constructor
  · unfold least_squares.eval
    simp only [NDInput.columnData]
    rw [if_pos h]
    congr 1
    unfold npNorm
    rw [Real.sq_sqrt (Finset.sum_nonneg fun i _ => sq_nonneg _)]
  · intro shape
    rfl

/-- C2: `goldensection` raises the bracketing `RuntimeError` if and only if
`f(x + t*dx) <= f(x)` for every `t = 2^k`, `k < 64` (that is, for every
`t` in `{1, 2, 4, ..., 2^63}`); the error carries no partial result.  And
whenever bracketing succeeds at the smallest such exponent `k0`, the
golden-section phase is entered with the bracket `[x, x + 2^k0 * dx]` and
the evaluation counter at `2*(k0+1)`. -/
theorem bracketing_failure_iff {N : ℕ} (fuel : ℕ) (f : Vec N → ℝ)
    (x dx : Vec N) (p : ℝ) :
    (goldensection fuel f x dx p = some SearchResult.bracketingFailed ↔
      ∀ k, k < 64 → f (x + ((2 : ℝ) ^ k) • dx) ≤ f x) ∧
    (∀ k0, k0 < 64 → f (x + ((2 : ℝ) ^ k0) • dx) > f x →
      (∀ l, l < k0 → f (x + ((2 : ℝ) ^ l) • dx) ≤ f x) →
      goldensection fuel f x dx p =
        gsPhase f x dx p fuel ((2 : ℝ) ^ k0) (2 * (k0 + 1))) := by
  have h120 : (1 : ℝ) = (2 : ℝ) ^ (0 : ℕ) := by norm_num
  constructor
  · constructor
    · intro hfail k hk
      rcases hbl : bracketLoop f x dx 64 1 0 with ⟨ot, c⟩
      cases ot with
      | none =>
        have hnone : (bracketLoop f x dx 64 ((2 : ℝ) ^ (0 : ℕ)) 0).1 = none := by
          rw [← h120, hbl]
        have hall := (bracketLoop_none_iff f x dx 64 0 0).mp hnone
        have := hall k hk
        simpa using not_lt.mp (by simpa using this)
      | some t =>
        rw [goldensection_of_bracket fuel f x dx p t c hbl] at hfail
        unfold gsPhase at hfail
        cases hgs : gsAux f p fuel (initGsState x (x + t • dx) c) with
        | none => rw [hgs] at hfail; simp at hfail
        | some rc => rw [hgs] at hfail; simp at hfail
    · intro hall
      have hbl : bracketLoop f x dx 64 1 0 = (none, 0 + 2 * 64) := by
        rw [h120]
        apply bracketLoop_all_fail
        intro k hk
        simpa using not_lt.mpr (hall k hk)
      exact goldensection_of_bracket_fail fuel f x dx p _ hbl
  · intro k0 hk0 hks hmin
    have hbl : bracketLoop f x dx 64 1 0
        = (some ((2 : ℝ) ^ k0), 2 * (k0 + 1)) := by
      rw [h120]
      have := bracketLoop_find f x dx 64 k0 0 0 hk0
        (by simpa using hks) (fun l hl => by simpa using not_lt.mpr (hmin l hl))
      simpa using this
    exact goldensection_of_bracket fuel f x dx p _ _ hbl

/-- C1: whenever a `goldensection` search on an objective that is strictly
unimodal along the ray (strictly decreasing up to the ray minimizer `tm ≥ 0`,
strictly increasing after it) terminates successfully with positive
`precision`, the returned point is within `precision` (in Euclidean norm) of
the true minimizer `x + tm*dx` on the ray; in particular the final bracket
handed to the termination test has norm at most `precision` and the returned
point is its midpoint. -/
theorem goldensection_within_precision {N : ℕ} (fuel : ℕ) (f : Vec N → ℝ)
    (x dx : Vec N) (precision tm : ℝ) (r : LSResult N)
    (htm : 0 ≤ tm)
    (hanti : StrictAntiOn (fun u => f (rayPt x dx u)) (Set.Icc 0 tm))
    (hmono : StrictMonoOn (fun u => f (rayPt x dx u)) (Set.Ici tm))
    (hprec : 0 < precision)
    (hrun : goldensection fuel f x dx precision = some (SearchResult.found r)) :
    npNorm (r.x - rayPt x dx tm) ≤ precision ∧
    ∃ lo hi : Vec N, npNorm (hi - lo) ≤ precision ∧
      r.x = (2⁻¹ : ℝ) • (lo + hi) := by
  rcases hbl : bracketLoop f x dx 64 1 0 with ⟨ot, c⟩
  cases ot with
  | none =>
    rw [goldensection_of_bracket_fail fuel f x dx precision c hbl] at hrun
    simp at hrun
  | some t =>
    rw [goldensection_of_bracket fuel f x dx precision t c hbl] at hrun
    unfold gsPhase at hrun
    rcases hgs : gsAux f precision fuel (initGsState x (x + t • dx) c)
      with _ | ⟨xopt, c'⟩
    · rw [hgs] at hrun
      simp at hrun
    · rw [hgs] at hrun
      simp only [Option.map_some', Option.some.injEq] at hrun
      obtain ⟨i0, _, hteq, _, hsucc, _⟩ :=
        bracketLoop_some f x dx 64 1 0 t c hbl
      have ht_pos : 0 < t := by
        rw [hteq]
        positivity
    -- the initial `_gs` state is canonical for the bracket `[0, t]`
      have hcanon : GsCanon f x dx 0 t (initGsState x (x + t • dx) c) := by
        refine ⟨(rayPt_zero x dx).symm, ?_, ?_,
          Or.inl ⟨rfl, rfl⟩, Or.inl ⟨rfl, rfl⟩⟩
        · show x + t • dx = rayPt x dx (0 + t)
          rw [zero_add]
          rfl
        · show (x + t • dx) - x = t • dx
          funext i
          simp only [Pi.sub_apply, Pi.add_apply, Pi.smul_apply, smul_eq_mul]
          ring
      have htmt : tm ≤ t := by
        by_contra hcon
        push_neg at hcon
        have h0m : (0 : ℝ) ∈ Set.Icc 0 tm := ⟨le_refl 0, htm⟩
        have htmem : t ∈ Set.Icc 0 tm := ⟨le_of_lt ht_pos, le_of_lt hcon⟩
        have hdec : f (rayPt x dx t) < f (rayPt x dx 0) := hanti h0m htmem ht_pos
        rw [rayPt_zero] at hdec
        have : f (x + t • dx) < f x := hdec
        exact absurd hsucc (not_lt.mpr (le_of_lt this))
      obtain ⟨a', w', hw', ⟨htm1', htm2'⟩, hnorm', hmid⟩ :=
        gsAux_canon_run f x dx precision tm hanti hmono fuel _ 0 t hcanon
          (le_refl 0) ht_pos ⟨htm, by rwa [zero_add]⟩ xopt c' hgs
      have hrx : r.x = xopt := by
        have hr' := SearchResult.found.inj hrun
        rw [← hr']
      constructor
      · rw [hrx, hmid, rayPt_sub, npNorm_smul]
        have hnorm'' : w' * npNorm dx ≤ precision := by
          rwa [npNorm_smul, abs_of_pos hw'] at hnorm'
        have habs : |a' + w' / 2 - tm| ≤ w' / 2 := by
          rw [abs_le]
          constructor <;> linarith
        have hdxn : 0 ≤ npNorm dx := npNorm_nonneg dx
        have hhalf : (w' / 2) * npNorm dx = (w' * npNorm dx) / 2 := by ring
        calc |a' + w' / 2 - tm| * npNorm dx
            ≤ (w' / 2) * npNorm dx := mul_le_mul_of_nonneg_right habs hdxn
          _ ≤ precision := by rw [hhalf]; linarith
      · refine ⟨rayPt x dx a', rayPt x dx (a' + w'), ?_, ?_⟩
        · rw [rayPt_sub]
          have : a' + w' - a' = w' := by ring
          rw [this]
          exact hnorm'
        · have hmid2 : (a' + (a' + w')) / 2 = a' + w' / 2 := by ring
          rw [hrx, hmid, rayPt_mid, hmid2]

/-- C6: for a successful search whose direction has all components nonzero,
the returned step is exactly the component-wise average of
`(point[i] - start[i]) / direction[i]`, and `start + step * direction`
recovers the returned point exactly (in exact arithmetic), because every
probe point of the search lies on the ray `start + s * direction`. -/
theorem step_round_trip {N : ℕ} (fuel : ℕ) (f : Vec N → ℝ) (x dx : Vec N)
    (p : ℝ) (r : LSResult N)
    (hdx : ∀ i, dx i ≠ 0)
    (hrun : goldensection fuel f x dx p = some (SearchResult.found r)) :
    r.t = npAverage (fun i => (r.x i - x i) / dx i) ∧
    x + r.t • dx = r.x := by
  rcases hbl : bracketLoop f x dx 64 1 0 with ⟨ot, c⟩
  cases ot with
  | none =>
    rw [goldensection_of_bracket_fail fuel f x dx p c hbl] at hrun
    simp at hrun
  | some t =>
    rw [goldensection_of_bracket fuel f x dx p t c hbl] at hrun
    unfold gsPhase at hrun
    rcases hgs : gsAux f p fuel (initGsState x (x + t • dx) c)
      with _ | ⟨xopt, c'⟩
    · rw [hgs] at hrun
      simp at hrun
    · rw [hgs] at hrun
      simp only [Option.map_some', Option.some.injEq] at hrun
      have hr' := SearchResult.found.inj hrun
      subst hr'
      refine ⟨rfl, ?_⟩
      have honray : OnRay x dx (initGsState x (x + t • dx) c) := by
        refine ⟨⟨0, (rayPt_zero x dx).symm⟩, ⟨t, rfl⟩, ⟨t, ?_⟩,
          fun v hv => by simp [initGsState] at hv,
          fun v hv => by simp [initGsState] at hv⟩
        show (x + t • dx) - x = t • dx
        funext i
        simp only [Pi.sub_apply, Pi.add_apply, Pi.smul_apply, smul_eq_mul]
        ring
      obtain ⟨e, he⟩ := gsAux_ray f p x dx fuel _ honray xopt c' hgs
      show x + (npAverage fun i => (xopt i - x i) / dx i) • dx = xopt
      cases N with
      | zero =>
        funext i
        exact i.elim0
      | succ n =>
        have hratio : (fun i => (xopt i - x i) / dx i)
            = fun _ : Fin (n + 1) => e := by
          funext i
          rw [he]
          show (rayPt x dx e i - x i) / dx i = e
          rw [rayPt_apply, add_sub_cancel_left]
          exact mul_div_cancel_right₀ e (hdx i)
        rw [hratio]
        have havg : npAverage (fun _ : Fin (n + 1) => e) = e := by
          unfold npAverage
          rw [Finset.sum_const, Finset.card_univ, Fintype.card_fin,
            nsmul_eq_mul]
          have hne : ((n : ℝ) + 1) ≠ 0 := by positivity
          push_cast
          field_simp
        rw [havg, he]
        rfl

/-- C4: the returned `nfev` counts the objective evaluations exactly: a call
whose bracketing fails has made exactly `128 = 2 * 64` objective evaluations
(two per bracketing iteration, including the re-evaluation of
`objective(start)`); a successful call returns `nfev` equal to `2 * (k0 + 1)`
evaluations for the `k0 + 1` bracketing iterations (bracketing succeeds at
the smallest exponent `k0`) plus exactly the evaluations `d` performed by the
golden-section phase (its counter run from `0`); and the counter is
non-negative and monotonically non-decreasing through the recursion. -/
theorem evaluation_accounting {N : ℕ} (fuel : ℕ) (f : Vec N → ℝ) (x dx : Vec N)
    (p : ℝ) (r : LSResult N) :
    ((bracketLoop f x dx 64 1 0).1 = none →
      (bracketLoop f x dx 64 1 0).2 = 128) ∧
    (goldensection fuel f x dx p = some (SearchResult.found r) →
      ∃ k0 d, k0 < 64 ∧
        f (x + ((2 : ℝ) ^ k0) • dx) > f x ∧
        (∀ l, l < k0 → ¬ f (x + ((2 : ℝ) ^ l) • dx) > f x) ∧
        gsAux f p fuel (initGsState x (x + ((2 : ℝ) ^ k0) • dx) 0)
          = some (r.x, d) ∧
        r.nfev = 2 * (k0 + 1) + d) ∧
    (∀ fuel' (s : GsState N) r' c', gsAux f p fuel' s = some (r', c') →
      s.nfev ≤ c') := by
  refine ⟨?_, ?_, fun fuel' s r' c' h => gsAux_mono f p fuel' s r' c' h⟩
  · intro hnone
    have := bracketLoop_none_count f x dx 64 1 0 hnone
    simpa using this
  · intro hrun
    rcases hbl : bracketLoop f x dx 64 1 0 with ⟨ot, c⟩
    cases ot with
    | none =>
      rw [goldensection_of_bracket_fail fuel f x dx p c hbl] at hrun
      simp at hrun
    | some t =>
      rw [goldensection_of_bracket fuel f x dx p t c hbl] at hrun
      unfold gsPhase at hrun
      rcases hgs : gsAux f p fuel (initGsState x (x + t • dx) c)
        with _ | ⟨xopt, c'⟩
      · rw [hgs] at hrun
        simp at hrun
      · rw [hgs] at hrun
        simp only [Option.map_some', Option.some.injEq] at hrun
        have hr' := SearchResult.found.inj hrun
        subst hr'
        obtain ⟨i0, hi64, hteq, hceq, hsucc, hminl⟩ :=
          bracketLoop_some f x dx 64 1 0 t c hbl
        rw [mul_one] at hteq
        subst hteq
        have hinit : { initGsState x (x + ((2 : ℝ) ^ i0) • dx) 0 with nfev := c }
            = initGsState x (x + ((2 : ℝ) ^ i0) • dx) c := rfl
        have hinit0 : { initGsState x (x + ((2 : ℝ) ^ i0) • dx) 0 with nfev := 0 }
            = initGsState x (x + ((2 : ℝ) ^ i0) • dx) 0 := rfl
        have hshift := gsAux_shift f p fuel (initGsState x (x + ((2 : ℝ) ^ i0) • dx) 0) c
        rw [hinit, hinit0, hgs] at hshift
        rcases hgs0 : gsAux f p fuel (initGsState x (x + ((2 : ℝ) ^ i0) • dx) 0)
          with _ | ⟨x0, d0⟩
        · rw [hgs0] at hshift
          simp at hshift
        · rw [hgs0] at hshift
          simp only [Option.map_some', Option.some.injEq, Prod.mk.injEq] at hshift
          obtain ⟨hx0, hc0⟩ := hshift
          refine ⟨i0, d0, hi64, hsucc, ?_, ?_, ?_⟩
          · intro l hl
            have := hminl l hl
            rwa [mul_one] at this
          · rw [hgs0, hx0]
          · show c' = 2 * (i0 + 1) + d0
            omega

/-- C9 (amended): the step recovery of `goldensection` is not guarded against
zero direction components: for every successful search the returned step is
the average of the component-wise ratios `(point[i] - start[i]) / dx[i]`,
taken unconditionally over all components — including any `i` with
`dx i = 0`; no test on `direction` appears anywhere in the call. -/
theorem step_recovery_unguarded {N : ℕ} (fuel : ℕ) (f : Vec N → ℝ)
    (x dx : Vec N) (p : ℝ) (r : LSResult N)
    (hrun : goldensection fuel f x dx p = some (SearchResult.found r)) :
    r.t = npAverage (fun i => (r.x i - x i) / dx i) := by
  rcases hbl : bracketLoop f x dx 64 1 0 with ⟨ot, c⟩
  cases ot with
  | none =>
    rw [goldensection_of_bracket_fail fuel f x dx p c hbl] at hrun
    simp at hrun
  | some t =>
    rw [goldensection_of_bracket fuel f x dx p t c hbl] at hrun
    unfold gsPhase at hrun
    rcases hgs : gsAux f p fuel (initGsState x (x + t • dx) c)
      with _ | ⟨xopt, c'⟩
    · rw [hgs] at hrun
      simp at hrun
    · rw [hgs] at hrun
      simp only [Option.map_some', Option.some.injEq] at hrun
      have hr' := SearchResult.found.inj hrun
      subst hr'
      rfl

/-! ## Concrete runs for witnesses and counterexamples -/

theorem wf_ray (u : ℝ) : wf (rayPt wx wdx u) = (u - 4⁻¹) ^ 2 := by
  unfold wf
  rw [rayPt_apply]
  norm_num [wx, wdx]

theorem wf_anti :
    StrictAntiOn (fun u => wf (rayPt wx wdx u)) (Set.Icc 0 (4⁻¹ : ℝ)) := by
  intro a ha b hb hab
  simp only [wf_ray]
  obtain ⟨ha1, ha2⟩ := ha
  obtain ⟨hb1, hb2⟩ := hb
  nlinarith

theorem wf_mono :
    StrictMonoOn (fun u => wf (rayPt wx wdx u)) (Set.Ici (4⁻¹ : ℝ)) := by
  intro a ha b hb hab
  simp only [wf_ray]
  have ha' : (4⁻¹ : ℝ) ≤ a := ha
  have hb' : (4⁻¹ : ℝ) ≤ b := hb
  nlinarith

theorem wrun_eq : goldensection 1 wf wx wdx 2 = some (SearchResult.found wr) := by
  have hbr1 : wf (wx + (1 : ℝ) • wdx) > wf wx := by
    have h1 : (wx + (1 : ℝ) • wdx) 0 = 1 := by
      simp [wx, wdx]
    unfold wf
    rw [h1]
    norm_num [wx]
  have hbl : bracketLoop wf wx wdx 64 1 0 = (some 1, 2) := by
    rw [show (64 : ℕ) = 63 + 1 from rfl, bracketLoop_succ, if_pos hbr1]
  have hh : gsResolveH (initGsState wx (wx + (1 : ℝ) • wdx) 2)
      = fun _ : Fin 1 => (1 : ℝ) := by
    funext i
    simp [gsResolveH, initGsState, wx, wdx]
  have hnorm1 : npNorm (fun _ : Fin 1 => (1 : ℝ)) = 1 := by
    unfold npNorm
    simp
  have hcond : npNorm (gsResolveH (initGsState wx (wx + (1 : ℝ) • wdx) 2)) ≤ 2 := by
    rw [hh, hnorm1]
    norm_num
  have hgs : gsAux wf 2 1 (initGsState wx (wx + (1 : ℝ) • wdx) 2)
      = some ((2⁻¹ : ℝ) • (wx + (wx + (1 : ℝ) • wdx)), 2) := by
    rw [gsAux_succ, if_pos hcond]
    rfl
  rw [goldensection_of_bracket 1 wf wx wdx 2 1 2 hbl]
  unfold gsPhase
  rw [hgs]
  simp only [Option.map_some']
  have hxopt : (2⁻¹ : ℝ) • (wx + (wx + (1 : ℝ) • wdx))
      = fun _ : Fin 1 => (2⁻¹ : ℝ) := by
    funext i
    simp [wx, wdx]
  rw [hxopt]
  have havg : npAverage (fun i : Fin 1 =>
      ((fun _ : Fin 1 => (2⁻¹ : ℝ)) i - wx i) / wdx i) = 2⁻¹ := by
    unfold npAverage
    simp [wx, wdx]
  rw [havg]
  rfl

theorem crun_eq : goldensection 1 cf cx cdx 2 = some (SearchResult.found cr) := by
  have hbr1 : cf (cx + (1 : ℝ) • cdx) > cf cx := by
    have h1 : (cx + (1 : ℝ) • cdx) 0 = 1 := by
      simp [cx, cdx]
    unfold cf
    rw [h1]
    norm_num [cx]
  have hbl : bracketLoop cf cx cdx 64 1 0 = (some 1, 2) := by
    rw [show (64 : ℕ) = 63 + 1 from rfl, bracketLoop_succ, if_pos hbr1]
  have hh : gsResolveH (initGsState cx (cx + (1 : ℝ) • cdx) 2) = cdx := by
    funext i
    simp [gsResolveH, initGsState, cx, cdx]
  have hnormc : npNorm cdx = 1 := by
    unfold npNorm
    rw [Fin.sum_univ_two]
    norm_num [cdx]
  have hcond : npNorm (gsResolveH (initGsState cx (cx + (1 : ℝ) • cdx) 2)) ≤ 2 := by
    rw [hh, hnormc]
    norm_num
  have hgs : gsAux cf 2 1 (initGsState cx (cx + (1 : ℝ) • cdx) 2)
      = some ((2⁻¹ : ℝ) • (cx + (cx + (1 : ℝ) • cdx)), 2) := by
    rw [gsAux_succ, if_pos hcond]
    rfl
  rw [goldensection_of_bracket 1 cf cx cdx 2 1 2 hbl]
  unfold gsPhase
  rw [hgs]
  simp only [Option.map_some']
  have hxopt : (2⁻¹ : ℝ) • (cx + (cx + (1 : ℝ) • cdx))
      = fun i : Fin 2 => if i = 0 then (2⁻¹ : ℝ) else 0 := by
    funext i
    by_cases h : i = 0 <;> simp [cx, cdx, h]
  rw [hxopt]
  have havg : npAverage (fun i : Fin 2 =>
      ((fun j : Fin 2 => if j = 0 then (2⁻¹ : ℝ) else 0) i - cx i) / cdx i)
      = 4⁻¹ := by
    unfold npAverage
    rw [Fin.sum_univ_two]
    norm_num [cx, cdx]
  rw [havg]
  rfl

/-! ## Witnesses and counterexamples -/

/-- Witness for C1: for the objective `(v - 1/4)^2` on `R^1` from `0` in
direction `1` with precision `2`, the search succeeds and its result lies
within precision of the ray minimizer `1/4`. -/
theorem goldensection_within_precision_witness :
    (0 : ℝ) ≤ 4⁻¹ ∧ (0 : ℝ) < 2 ∧ npNorm (wr.x - rayPt wx wdx 4⁻¹) ≤ 2 :=
  ⟨by norm_num, by norm_num,
    (goldensection_within_precision 1 wf wx wdx 2 4⁻¹ wr (by norm_num)
      wf_anti wf_mono (by norm_num) wrun_eq).1⟩

/-- Witness for C2: a constant objective never satisfies the bracketing test,
so `goldensection` reports the bracketing failure. -/
theorem bracketing_failure_iff_witness :
    (∀ k, k < 64 → zf (zv + ((2 : ℝ) ^ k) • zv) ≤ zf zv) ∧
    goldensection 0 zf zv zv 1 = some SearchResult.bracketingFailed :=
  ⟨fun _ _ => le_refl 0, (bracketing_failure_iff 0 zf zv zv 1).1.mpr
    (fun _ _ => le_refl 0)⟩

/-- Witness for C3: the initial `_gs` tuple on the bracket `[0, 1]` in `R^1`
satisfies the width invariant, and one step preserves it while shrinking the
width by exactly `iphi`. -/
theorem gs_step_width_shrink_witness :
    GsInv gw ∧
    (GsInv (gsStep gwf gw) ∧
      gsResolveH (gsStep gwf gw) = iphi • gsResolveH gw ∧
      (gsStep gwf gw).x4 - (gsStep gwf gw).x1 = iphi • (gw.x4 - gw.x1) ∧
      (((gsStep gwf gw).x1 = gw.x1 ∧
          (gsStep gwf gw).x4 = gw.x3.getD (gw.x1 + iphi • gsResolveH gw)) ∨
        ((gsStep gwf gw).x1 = gw.x2.getD (gw.x1 + iphi2 • gsResolveH gw) ∧
          (gsStep gwf gw).x4 = gw.x4))) :=
  have hinv : GsInv gw :=
    ⟨rfl, fun v hv => by simp [gw] at hv, fun v hv => by simp [gw] at hv⟩
  ⟨hinv, gs_step_width_shrink gwf gw hinv⟩

/-- Witness for C4: on the concrete run, bracketing succeeds at `k0 = 0`
after two evaluations and the golden phase adds none, totalling `nfev = 2`. -/
theorem evaluation_accounting_witness :
    goldensection 1 wf wx wdx 2 = some (SearchResult.found wr) ∧
    ∃ k0 d, k0 < 64 ∧
      wf (wx + ((2 : ℝ) ^ k0) • wdx) > wf wx ∧
      (∀ l, l < k0 → ¬ wf (wx + ((2 : ℝ) ^ l) • wdx) > wf wx) ∧
      gsAux wf 2 1 (initGsState wx (wx + ((2 : ℝ) ^ k0) • wdx) 0)
        = some (wr.x, d) ∧
      wr.nfev = 2 * (k0 + 1) + d :=
  ⟨wrun_eq, (evaluation_accounting 1 wf wx wdx 2 wr).2.1 wrun_eq⟩

/-- Witness for C5: a `_gs` tuple carrying exactly one cached value, as every
recursive call produces, makes exactly one fresh evaluation in its step. -/
theorem gs_step_single_eval_witness :
    cachedFx hw5 = 1 ∧ (gsStep gwf hw5).nfev = hw5.nfev + 1 :=
  have h1 : cachedFx hw5 = 1 := rfl
  ⟨h1, (gs_step_single_eval gwf hw5).2.1 h1⟩

/-- Witness for C6: on the concrete run (all direction components nonzero)
the recovered step reproduces the returned point exactly. -/
theorem step_round_trip_witness :
    (∀ i, wdx i ≠ 0) ∧ wx + wr.t • wdx = wr.x :=
  ⟨fun _ => by norm_num [wdx],
    (step_round_trip 1 wf wx wdx 2 wr (fun _ => by norm_num [wdx]) wrun_eq).2⟩

/-- Witness for C7: a 3-element flat query against a `1 × 2` instance has
coerced row count `3 ≠ 2`, so evaluation raises the shape mismatch. -/
theorem eval_shape_mismatch_iff_witness :
    (NDInput.seq [0, 0, 0]).columnData.length ≠ 2 ∧
    ∃ e, L7.eval (NDInput.seq [0, 0, 0]) = .error e :=
  have hne : (NDInput.seq ([0, 0, 0] : List ℝ)).columnData.length ≠ 2 := by
    simp [NDInput.columnData]
  ⟨hne, (eval_shape_mismatch_iff L7 (NDInput.seq [0, 0, 0])).1.mpr hne⟩

/-- Witness for C8: evaluating the `1 × 1` instance `A = [[2]]`, `b = [1]` at
the flat query `[3]` returns the squared residual norm. -/
theorem eval_residual_sq_norm_witness :
    ([3] : List ℝ).length = 1 ∧
    L8.eval (NDInput.seq [3])
      = .ok (∑ i, (mulVec L8.A (listCol [3] 1) i - L8.b i) ^ 2) :=
  ⟨rfl, (eval_residual_sq_norm L8 [3] rfl).1⟩

/-- Counterexample for C9 as stated: with direction `(1, 0)` (second
component zero) the search succeeds, the step recovery divides by the zero
component without any guard, and the resulting averaged step breaks the
round trip: `start + step * direction ≠ point`. -/
theorem step_recovery_div_zero_counterexample :
    goldensection 1 cf cx cdx 2 = some (SearchResult.found cr) ∧
    cdx 1 = 0 ∧
    cx + cr.t • cdx ≠ cr.x := by
  refine ⟨crun_eq, by norm_num [cdx], ?_⟩
  intro hcontra
  have h0 := congrFun hcontra 0
  simp [cx, cdx, cr] at h0

/-- Witness for the amended C9: on the zero-component run the returned step
is exactly the unguarded component-wise average (whose second ratio divides
by zero). -/
theorem step_recovery_unguarded_witness :
    goldensection 1 cf cx cdx 2 = some (SearchResult.found cr) ∧
    cr.t = npAverage (fun i => (cr.x i - cx i) / cdx i) :=
  ⟨crun_eq, step_recovery_unguarded 1 cf cx cdx 2 cr crun_eq⟩

end Optimisation
